import Mathlib

/-!
Shallow embedding of the layout / coordinate-mapping engine of
`REHex::DocumentCtrl` (src/src/DocumentCtrl.hpp).

Only the class header is present in the repository snapshot: every method
body (DocumentCtrl.cpp) is absent.  The constants below are taken directly
from the header; every behavioural definition is therefore modelled from
the specification's description of the corresponding member, and is marked
`Modelled from the spec:` in its doc comment.

Conventions: `off_t` byte offsets inside the document are `Nat` (they are
never negative); results that can also carry the negative navigation
sentinels are `Int`.
-/

namespace REHex

/-- From src/src/DocumentCtrl.hpp line 129:
`static const off_t CURSOR_PREV_REGION = -2;`. -/
def CURSOR_PREV_REGION : Int := -2

/-- From src/src/DocumentCtrl.hpp line 130:
`static const off_t CURSOR_NEXT_REGION = -3;`. -/
def CURSOR_NEXT_REGION : Int := -3

/-- From src/src/DocumentCtrl.hpp line 353:
`static const int BYTES_PER_LINE_FIT_BYTES = 0;`. -/
def BYTES_PER_LINE_FIT_BYTES : Int := 0

/-- From src/src/DocumentCtrl.hpp line 354:
`static const int BYTES_PER_LINE_FIT_GROUPS = -1;`. -/
def BYTES_PER_LINE_FIT_GROUPS : Int := -1

/-- From src/src/DocumentCtrl.hpp line 355:
`static const int BYTES_PER_LINE_MIN = 1;`. -/
def BYTES_PER_LINE_MIN : Int := 1

/-- From src/src/DocumentCtrl.hpp line 356:
`static const int BYTES_PER_LINE_MAX = 128;`. -/
def BYTES_PER_LINE_MAX : Int := 128

/-- The accepted domain of the bytes-per-line setting: the two auto-fit
sentinels (`BYTES_PER_LINE_FIT_BYTES = 0`, `BYTES_PER_LINE_FIT_GROUPS = -1`)
together with the range `[BYTES_PER_LINE_MIN, BYTES_PER_LINE_MAX]`. -/
def bytesPerLineDomain (v : Int) : Prop :=
  v = BYTES_PER_LINE_FIT_BYTES ∨ v = BYTES_PER_LINE_FIT_GROUPS ∨
    (BYTES_PER_LINE_MIN ≤ v ∧ v ≤ BYTES_PER_LINE_MAX)

instance (v : Int) : Decidable (bytesPerLineDomain v) := by
  unfold bytesPerLineDomain; infer_instance

/-- The data carried by a `GenericDataRegion` (src/src/DocumentCtrl.hpp
lines 101-102): the contiguous byte range `[d_offset, d_offset+d_length)`
of the document that the region displays. -/
structure GenericDataRegionS where
  d_offset : Nat
  d_length : Nat
deriving DecidableEq, Repr

/-- `off` lies inside the byte range `[d_offset, d_offset+d_length)` of
region `r`. -/
def inRange (r : GenericDataRegionS) (off : Nat) : Prop :=
  r.d_offset ≤ off ∧ off < r.d_offset + r.d_length

instance (r : GenericDataRegionS) (off : Nat) : Decidable (inRange r off) := by
  unfold inRange; infer_instance

/-- A region of the ordered `regions` list: either byte-backed
(`GenericDataRegion`) or an annotation (`CommentRegion`), mirroring the
class hierarchy of src/src/DocumentCtrl.hpp. -/
inductive RegionS where
  | data (r : GenericDataRegionS)
  | comment (c_offset c_length : Nat)
deriving DecidableEq, Repr

/-- The `data_regions` subset (src/src/DocumentCtrl.hpp line 433): the
byte-backed members of the ordered region list, in list order. -/
def dataRegionsOf (l : List RegionS) : List GenericDataRegionS :=
  l.filterMap (fun r => match r with
    | RegionS.data d => some d
    | RegionS.comment _ _ => none)

/-- The state of one `DocumentCtrl` that the claims touch: the region list
and its byte-backed subset, the display configuration, the cursor, the
selection and the vertical scroll position (src/src/DocumentCtrl.hpp
lines 430-478). -/
structure DocumentCtrlState where
  doc_length : Nat
  regions : List RegionS
  data_regions : List GenericDataRegionS
  bytes_per_line : Int
  cpos_off : Int
  selection_off : Nat
  selection_length : Nat
  scroll_yoff : Int
deriving Repr

/-- Modelled from the spec: `set_bytes_per_line` silently clamps an
out-of-range value to the nearest sentinel or bound of the accepted
domain (the sentinels 0 and -1 together with `[1,128]`, which is the
contiguous integer interval `[-1,128]`) instead of rejecting the call. -/
def set_bytes_per_line (s : DocumentCtrlState) (v : Int) : DocumentCtrlState :=
  { s with bytes_per_line := max BYTES_PER_LINE_FIT_GROUPS (min BYTES_PER_LINE_MAX v) }

/-- `get_bytes_per_line` (src/src/DocumentCtrl.hpp line 358) returns the
stored setting. -/
def get_bytes_per_line (s : DocumentCtrlState) : Int :=
  s.bytes_per_line

/-- Modelled from the spec: `_data_region_by_offset` locates the data
region owning a byte offset by search over `data_regions` (ordered by
`d_offset`); an offset outside every region yields an empty result. -/
def _data_region_by_offset (s : DocumentCtrlState) (off : Nat) :
    Option GenericDataRegionS :=
  s.data_regions.find? (fun r => decide (inRange r off))

/-- `data_region_by_offset` (src/src/DocumentCtrl.hpp line 394) is the
public wrapper of `_data_region_by_offset`. -/
def data_region_by_offset (s : DocumentCtrlState) (off : Nat) :
    Option GenericDataRegionS :=
  _data_region_by_offset s off

/-- An empty document-control state, used as the base point of concrete
witnesses. -/
def initialState : DocumentCtrlState :=
  { doc_length := 0, regions := [], data_regions := [],
    bytes_per_line := BYTES_PER_LINE_FIT_BYTES, cpos_off := 0,
    selection_off := 0, selection_length := 0, scroll_yoff := 0 }

/-- Modelled from the spec: the layout recompute performed by
`_handle_width_change`, `_handle_height_change` and `replace_all_regions`
(src/src/DocumentCtrl.hpp lines 504-505) walks the ordered region list and
assigns each region's cached `y_offset` cumulatively: the first region
starts at line `y0`, every later region starts where the previous one
ends.  `heights` are the `y_lines` values produced by each region's
`calc_height`; the result pairs each region's `(y_offset, y_lines)`. -/
def assignYOffsets (y0 : Nat) : List Nat → List (Nat × Nat)
  | [] => []
  | h :: hs => (y0, h) :: assignYOffsets (y0 + h) hs

/-- Modelled from the spec: a full layout recompute assigns y offsets from
line 0. -/
def recompute_layout (heights : List Nat) : List (Nat × Nat) :=
  assignYOffsets 0 heights

/-- Modelled from the spec: `contiguousFrom base l` says the byte-backed
regions `l` appear in document order and tile the document contiguously
starting at byte `base`: each region starts exactly where the previous one
ends.  This is the shape of the externally constructed region list handed
to `replace_all_regions`. -/
def contiguousFrom : Nat → List GenericDataRegionS → Prop
  | _, [] => True
  | base, r :: rs => r.d_offset = base ∧ contiguousFrom (base + r.d_length) rs

instance instDecContiguousFrom :
    (b : Nat) → (l : List GenericDataRegionS) → Decidable (contiguousFrom b l)
  | _, [] => isTrue trivial
  | b, r :: rs =>
    have : Decidable (contiguousFrom (b + r.d_length) rs) := instDecContiguousFrom _ rs
    inferInstanceAs (Decidable (_ ∧ _))

/-- Total byte length covered by a list of data regions. -/
def sumLen (l : List GenericDataRegionS) : Nat :=
  (l.map (fun r => r.d_length)).sum

/-- `o` is covered by some region of `l`. -/
def coveredBy (l : List GenericDataRegionS) (o : Nat) : Prop :=
  ∃ r ∈ l, inRange r o

instance (l : List GenericDataRegionS) (o : Nat) : Decidable (coveredBy l o) := by
  unfold coveredBy; infer_instance

/-- Modelled from the spec: `replace_all_regions` takes ownership of an
externally constructed ordered region list and rebuilds the
`data_regions` subset (the byte-backed members, in list order) from it. -/
def replace_all_regions (s : DocumentCtrlState) (new_regions : List RegionS) :
    DocumentCtrlState :=
  { s with regions := new_regions, data_regions := dataRegionsOf new_regions }

/-- Clamp a requested cursor offset into `[0, document length]`. -/
def clampCursor (position : Int) (doc_length : Nat) : Int :=
  max 0 (min position (doc_length : Int))

/-- Modelled from the spec: `_set_cursor_position` guards out-of-range
offsets defensively, clamping the requested position into
`[0, document length]` instead of failing. -/
def _set_cursor_position (s : DocumentCtrlState) (position : Int) :
    DocumentCtrlState :=
  { s with cpos_off := clampCursor position s.doc_length }

/-- `set_cursor_position` (src/src/DocumentCtrl.hpp line 379) is the
public wrapper of `_set_cursor_position`. -/
def set_cursor_position (s : DocumentCtrlState) (position : Int) :
    DocumentCtrlState :=
  _set_cursor_position s position

/-- Modelled from the spec: a cursor offset is reachable via some data
region's cursor navigation when it lies within or adjacent to that
region's byte range (the navigation primitives take and return byte
offsets within, or adjacent to, their region). -/
def reachableCursorOffset (l : List GenericDataRegionS) (p : Int) : Prop :=
  ∃ r ∈ l, (r.d_offset : Int) ≤ p ∧ p ≤ (r.d_offset : Int) + (r.d_length : Int)

instance (l : List GenericDataRegionS) (p : Int) :
    Decidable (reachableCursorOffset l p) := by
  unfold reachableCursorOffset; infer_instance

/-- One control of a linked-scroll group: its identity and its vertical
scroll position in lines (src/src/DocumentCtrl.hpp lines 463-469). -/
structure ScrollCtrl where
  id : Nat
  scroll_yoff : Int
deriving DecidableEq, Repr

/-- Modelled from the spec: `linked_scroll_insert_self_after` inserts a
control into the doubly-linked ring of a sibling; a ring is modelled as
the list of its member controls. -/
def linked_scroll_insert_self_after (self : ScrollCtrl) (ring : List ScrollCtrl) :
    List ScrollCtrl :=
  ring ++ [self]

/-- Modelled from the spec: `linked_scroll_visit_others` visits every
member of the ring except the originating control; the result is the list
of identities of the controls that get notified. -/
def linked_scroll_visit_others (ring : List ScrollCtrl) (origin : Nat) : List Nat :=
  (ring.filter (fun c => decide (c.id ≠ origin))).map (fun c => c.id)

/-- Modelled from the spec: `set_scroll_yoff` stores the new vertical
scroll position in the originating control, then `_update_vscroll_pos`
(with update_linked_scroll_others=true) pushes the same position to every
other member of the ring; the pushed updates run with
update_linked_scroll_others=false, so propagation never re-enters the
origin.  Returns the updated ring and the notified identities. -/
def set_scroll_yoff (ring : List ScrollCtrl) (origin : Nat) (v : Int) :
    List ScrollCtrl × List Nat :=
  let ring1 := ring.map (fun c => if c.id = origin then { c with scroll_yoff := v } else c)
  let notified := linked_scroll_visit_others ring1 origin
  let ring2 := ring1.map (fun c => if c.id = origin then c else { c with scroll_yoff := v })
  (ring2, notified)

/-- The possible outcomes of a clipboard copy: the owning region's
`OnCopy` hook, or the default serialization across the selected range. -/
inductive CopyResult where
  | regionCopy (r : GenericDataRegionS)
  | defaultSerialization
deriving DecidableEq, Repr

/-- The selection `[off, off + len)` lies wholly within region `r`. -/
def whollyContains (r : GenericDataRegionS) (off len : Nat) : Bool :=
  decide (r.d_offset ≤ off) && decide (off + len ≤ r.d_offset + r.d_length)

/-- Modelled from the spec: the copy handler dispatches to the owning
region's `OnCopy` when the current selection lies wholly within a single
data region, and otherwise produces the default serialization across the
full selected range. -/
def do_copy (s : DocumentCtrlState) : CopyResult :=
  match s.data_regions.find?
      (fun r => whollyContains r s.selection_off s.selection_length) with
  | some r => CopyResult.regionCopy r
  | none => CopyResult.defaultSerialization

/-- Two data regions have non-overlapping byte ranges. -/
def rangesDisjoint (a b : GenericDataRegionS) : Prop :=
  a.d_offset + a.d_length ≤ b.d_offset ∨ b.d_offset + b.d_length ≤ a.d_offset

instance (a b : GenericDataRegionS) : Decidable (rangesDisjoint a b) := by
  unfold rangesDisjoint; infer_instance

/-- An on-screen rectangle (src/src/DocumentCtrl.hpp lines 44-54):
`x`, `w` in pixels, `y`, `h` in lines; a default-constructed rectangle
holds -1 in every field, meaning undefined. -/
structure Rect where
  x : Int
  y : Int
  w : Int
  h : Int
deriving DecidableEq, Repr

/-- The default `Rect()` constructor of the source: all fields -1. -/
def Rect.undefined : Rect :=
  { x := -1, y := -1, w := -1, h := -1 }

/-- The layout data of one concrete `DataRegion`
(src/src/DocumentCtrl.hpp lines 242-318): the byte range it displays, its
first screen line, the virtual X of the left edge of the hex column
(`hex_text_x`, line 275), the fixed per-character pixel width, the number
of bytes shown per line (`bytes_per_line_actual`, line 278), the group
size, and the first-line padding (line 279). -/
structure DataRegionLayout where
  d_offset : Nat
  d_length : Nat
  y_offset : Nat
  hex_text_x : Nat
  hf_char_width : Nat
  bytes_per_line_actual : Nat
  bytes_per_group : Nat
  first_line_pad_bytes : Nat
deriving DecidableEq, Repr

/-- Modelled from the spec: the hex column gives each byte a two-character
cell, with a one-character gap after every `bytes_per_group` bytes; this
is the character column where the cell of the `b`-th byte of a line
starts. -/
def hexCellXChars (L : DataRegionLayout) (b : Nat) : Nat :=
  2 * b + b / L.bytes_per_group

/-- The character index (relative to the left edge of the hex column) of
an on-screen pixel X, by integer division against the fixed character
width. -/
def relCharOf (L : DataRegionLayout) (x : Int) : Nat :=
  (x - (L.hex_text_x : Int)).toNat / L.hf_char_width

/-- The in-line byte index hit by pixel X: the character index is split
into a group number and a position within the group (2 characters per
byte plus the 1-character gap), then recombined. -/
def byteInLine (L : DataRegionLayout) (x : Int) : Nat :=
  relCharOf L x / (2 * L.bytes_per_group + 1) * L.bytes_per_group +
    relCharOf L x % (2 * L.bytes_per_group + 1) / 2

/-- Modelled from the spec: `DataRegion::offset_at_xy` (hex area), the
exact hit test converting an on-screen point into the byte offset of the
cell it lies in, by integer division against the column start offsets and
the character width.  `x` is the virtual pixel X, `y` the line relative
to the region's first line.  Points left of the hex column, on the gap
between groups, beyond the line's bytes, on the first-line padding or
past the region's data hit no byte cell. -/
def offset_at_xy_hex (L : DataRegionLayout) (x y : Int) : Option Nat :=
  if x < (L.hex_text_x : Int) ∨ y < 0 then none
  else if relCharOf L x % (2 * L.bytes_per_group + 1) = 2 * L.bytes_per_group then none
  else if L.bytes_per_line_actual ≤ byteInLine L x then none
  else if y.toNat * L.bytes_per_line_actual + byteInLine L x <
      L.first_line_pad_bytes then none
  else if L.d_length ≤
      y.toNat * L.bytes_per_line_actual + byteInLine L x -
        L.first_line_pad_bytes then none
  else
    some (L.d_offset +
      (y.toNat * L.bytes_per_line_actual + byteInLine L x -
        L.first_line_pad_bytes))

/-- Modelled from the spec: `DataRegion::calc_offset_bounds`, the same
arithmetic run in reverse — the on-screen bounding box of one byte's hex
cell, two characters wide and one line high. -/
def calc_offset_bounds (L : DataRegionLayout) (off : Nat) : Rect :=
  { x := ((L.hex_text_x + L.hf_char_width *
        hexCellXChars L
          ((off - L.d_offset + L.first_line_pad_bytes) %
            L.bytes_per_line_actual) : Nat) : Int),
    y := ((L.y_offset +
        (off - L.d_offset + L.first_line_pad_bytes) /
          L.bytes_per_line_actual : Nat) : Int),
    w := ((2 * L.hf_char_width : Nat) : Int),
    h := 1 }

/-- Modelled from the spec: `DataRegion::cursor_right_from` returns the
offset of the cursor position right of `pos`, or the CURSOR_NEXT_REGION
sentinel when `pos` is the region's last cursor position. -/
def cursor_right_from (L : DataRegionLayout) (pos : Int) : Int :=
  if pos + 1 < (L.d_offset : Int) + (L.d_length : Int) then pos + 1
  else CURSOR_NEXT_REGION

/-- Modelled from the spec: `DataRegion::cursor_column`, the screen
column index (in hex-column characters) of a cursor offset within the
region, from its in-line byte index. -/
def cursor_column (L : DataRegionLayout) (pos : Int) : Int :=
  (hexCellXChars L
    (((pos - (L.d_offset : Int)).toNat + L.first_line_pad_bytes) %
      L.bytes_per_line_actual) : Nat)

/-- The cursor positions of the region's first screen line: the region's
first `bytes_per_line_actual - first_line_pad_bytes` bytes, capped by the
region's length. -/
def firstRowPositions (L : DataRegionLayout) : List Int :=
  (List.range
      (min (L.bytes_per_line_actual - L.first_line_pad_bytes) L.d_length)).map
    (fun b => (L.d_offset : Int) + (b : Int))

/-- The element of `c :: cs` minimising `f`; the first minimum wins
ties. -/
def minBy (f : Int → Nat) (c : Int) (cs : List Int) : Int :=
  cs.foldl (fun best p => if f p < f best then p else best) c

/-- Modelled from the spec: `DataRegion::first_row_nearest_column`
returns the cursor position nearest the given column on the first screen
line of the region. -/
def first_row_nearest_column (L : DataRegionLayout) (column : Int) : Int :=
  match firstRowPositions L with
  | [] => (L.d_offset : Int)
  | c :: cs => minBy (fun p => (cursor_column L p - column).natAbs) c cs

/-- Modelled from the spec: the control's cursor-right handler asks the
cursor's region for the position to its right; on the CURSOR_NEXT_REGION
sentinel it re-resolves the position inside the following region via that
region's `first_row_nearest_column` at the current visual column. -/
def cursor_right_dispatch (regs : List DataRegionLayout) (i : Nat) (pos : Int) : Int :=
  match regs.get? i with
  | none => pos
  | some R =>
    if cursor_right_from R pos = CURSOR_NEXT_REGION then
      match regs.get? (i + 1) with
      | some N => first_row_nearest_column N (cursor_column R pos)
      | none => pos
    else cursor_right_from R pos

/-- Consecutive layout entries are chained: each region ends exactly where
the next begins. -/
theorem assignYOffsets_chain (hs : List Nat) :
    ∀ y0, List.Chain' (fun a b => a.1 + a.2 = b.1) (assignYOffsets y0 hs) := by
  induction hs with
  | nil => intro y0; simp [assignYOffsets]
  | cons h t ih =>
    intro y0
    cases t with
    | nil => simp [assignYOffsets]
    | cons h2 t2 =>
      have hih := ih (y0 + h)
      simp only [assignYOffsets] at hih ⊢
      rw [List.chain'_cons]
      exact ⟨rfl, hih⟩

/-- Every region of a contiguous tail starts at or after the tail's
base. -/
theorem contiguousFrom_lower {b : Nat} {l : List GenericDataRegionS}
    (h : contiguousFrom b l) : ∀ r ∈ l, b ≤ r.d_offset := by
  induction l generalizing b with
  | nil => intro r hr; cases hr
  | cons a t ih =>
    intro r hr
    rcases h with ⟨ha, ht⟩
    rcases List.mem_cons.mp hr with rfl | hr
    · omega
    · have := ih ht r hr
      omega

/-- A contiguous list is sorted by `d_offset` and its ranges are pairwise
non-overlapping, each region ending at or before the next begins. -/
theorem contiguousFrom_pairwise {b : Nat} {l : List GenericDataRegionS}
    (h : contiguousFrom b l) :
    List.Pairwise
      (fun a c => a.d_offset ≤ c.d_offset ∧ a.d_offset + a.d_length ≤ c.d_offset) l := by
  induction l generalizing b with
  | nil => exact List.Pairwise.nil
  | cons a t ih =>
    rcases h with ⟨ha, ht⟩
    refine List.Pairwise.cons ?_ (ih ht)
    intro c hc
    have := contiguousFrom_lower ht c hc
    omega

/-- An offset is covered by a contiguous list exactly when it lies in the
interval the list tiles. -/
theorem contiguousFrom_coverage {b : Nat} {l : List GenericDataRegionS}
    (h : contiguousFrom b l) (o : Nat) :
    coveredBy l o ↔ (b ≤ o ∧ o < b + sumLen l) := by
  induction l generalizing b with
  | nil =>
    simp [coveredBy, sumLen]
  | cons a t ih =>
    rcases h with ⟨ha, ht⟩
    constructor
    · intro hcov
      rcases hcov with ⟨r, hr, hro⟩
      rcases List.mem_cons.mp hr with rfl | hr
      · rcases hro with ⟨h1, h2⟩
        have : sumLen (r :: t) = r.d_length + sumLen t := by
          simp [sumLen]
        omega
      · have := (ih ht).mp ⟨r, hr, hro⟩
        have : sumLen (a :: t) = a.d_length + sumLen t := by
          simp [sumLen]
        omega
    · intro hin
      have hsum : sumLen (a :: t) = a.d_length + sumLen t := by
        simp [sumLen]
      by_cases hlt : o < a.d_offset + a.d_length
      · exact ⟨a, List.mem_cons_self a t, by constructor <;> omega⟩
      · have := (ih ht).mpr (by omega)
        rcases this with ⟨r, hr, hro⟩
        exact ⟨r, List.mem_cons_of_mem a hr, hro⟩

/-- C10: the navigation sentinels are the fixed constants
`CURSOR_PREV_REGION = -2` and `CURSOR_NEXT_REGION = -3`; they are distinct
from each other, from `-1`, and from every non-negative (valid) byte
offset, so prev-region handoff, next-region handoff and the ordinary
negative no-byte-here result of `offset_at_xy` are always
distinguishable. -/
theorem sentinel_distinctness :
    CURSOR_PREV_REGION = -2 ∧ CURSOR_NEXT_REGION = -3 ∧
    CURSOR_PREV_REGION ≠ CURSOR_NEXT_REGION ∧
    CURSOR_PREV_REGION ≠ -1 ∧ CURSOR_NEXT_REGION ≠ -1 ∧
    ∀ off : Int, 0 ≤ off →
      off ≠ CURSOR_PREV_REGION ∧ off ≠ CURSOR_NEXT_REGION := by
  refine ⟨rfl, rfl, by decide, by decide, by decide, ?_⟩
  intro off hoff
  unfold CURSOR_PREV_REGION CURSOR_NEXT_REGION
  omega

/-- Witness for C10 at the concrete valid offset 0. -/
theorem sentinel_distinctness_witness :
    (0 : Int) ≠ CURSOR_PREV_REGION ∧ (0 : Int) ≠ CURSOR_NEXT_REGION :=
  sentinel_distinctness.2.2.2.2.2 0 (by decide)

/-- C5: `set_bytes_per_line` never rejects: any argument already in the
accepted domain is stored unchanged, any argument below the domain is
mapped to the low end `BYTES_PER_LINE_FIT_GROUPS = -1`, any argument above
it to `BYTES_PER_LINE_MAX = 128`, and `get_bytes_per_line` afterwards
always returns a value of the domain. -/
theorem set_bytes_per_line_clamps (s : DocumentCtrlState) (v : Int) :
    bytesPerLineDomain (get_bytes_per_line (set_bytes_per_line s v)) ∧
    (bytesPerLineDomain v → get_bytes_per_line (set_bytes_per_line s v) = v) ∧
    (v < BYTES_PER_LINE_FIT_GROUPS →
      get_bytes_per_line (set_bytes_per_line s v) = BYTES_PER_LINE_FIT_GROUPS) ∧
    (BYTES_PER_LINE_MAX < v →
      get_bytes_per_line (set_bytes_per_line s v) = BYTES_PER_LINE_MAX) := by
  unfold bytesPerLineDomain get_bytes_per_line set_bytes_per_line
  unfold BYTES_PER_LINE_FIT_BYTES BYTES_PER_LINE_FIT_GROUPS
  unfold BYTES_PER_LINE_MIN BYTES_PER_LINE_MAX
  dsimp only
  omega

/-- Witness for C5 at the out-of-range argument 1000 on the initial
state. -/
theorem set_bytes_per_line_clamps_witness :
    bytesPerLineDomain (get_bytes_per_line (set_bytes_per_line initialState 1000)) ∧
    get_bytes_per_line (set_bytes_per_line initialState 1000) = BYTES_PER_LINE_MAX := by
  refine ⟨(set_bytes_per_line_clamps initialState 1000).1, ?_⟩
  exact (set_bytes_per_line_clamps initialState 1000).2.2.2 (by decide)

/-- C8: an offset outside the range of every data region makes
`data_region_by_offset` return the empty result rather than fail. -/
theorem data_region_by_offset_none (s : DocumentCtrlState) (off : Nat)
    (h : ∀ r ∈ s.data_regions, ¬ inRange r off) :
    data_region_by_offset s off = none := by
  unfold data_region_by_offset _data_region_by_offset
  rw [List.find?_eq_none]
  intro r hr
  simpa using h r hr

/-- Witness for C8: a state with one data region `[0,4)` and the query
offset 9, which no region owns. -/
theorem data_region_by_offset_none_witness :
    data_region_by_offset
      { initialState with
          doc_length := 4,
          regions := [RegionS.data ⟨0, 4⟩],
          data_regions := [⟨0, 4⟩] } 9 = none := by
  apply data_region_by_offset_none
  intro r hr
  simp only [List.mem_singleton] at hr
  subst hr
  decide

/-- C2: after a layout recompute, for every consecutive pair of entries of
the laid-out region list, `y_offset i + y_lines i = y_offset (i+1)` — no
gaps, no overlaps — and the `y_offset` values are monotonically
non-decreasing. -/
theorem layout_contiguous (heights : List Nat) (i : Nat)
    (hc : i + 1 < (recompute_layout heights).length) :
    ((recompute_layout heights).get ⟨i, Nat.lt_of_succ_lt hc⟩).1 +
        ((recompute_layout heights).get ⟨i, Nat.lt_of_succ_lt hc⟩).2 =
      ((recompute_layout heights).get ⟨i + 1, hc⟩).1 ∧
    ((recompute_layout heights).get ⟨i, Nat.lt_of_succ_lt hc⟩).1 ≤
      ((recompute_layout heights).get ⟨i + 1, hc⟩).1 := by
  have hch := assignYOffsets_chain heights 0
  rw [List.chain'_iff_get] at hch
  unfold recompute_layout at hc ⊢
  have h := hch i (by omega)
  exact ⟨h, h ▸ Nat.le_add_right _ _⟩

/-- Witness for C2: three regions of heights 2, 3 and 1, checked at the
first consecutive pair. -/
theorem layout_contiguous_witness :
    ((recompute_layout [2, 3, 1]).get ⟨0, by decide⟩).1 +
        ((recompute_layout [2, 3, 1]).get ⟨0, by decide⟩).2 =
      ((recompute_layout [2, 3, 1]).get ⟨0 + 1, by decide⟩).1 ∧
    ((recompute_layout [2, 3, 1]).get ⟨0, by decide⟩).1 ≤
      ((recompute_layout [2, 3, 1]).get ⟨0 + 1, by decide⟩).1 :=
  layout_contiguous [2, 3, 1] 0 (by decide)

/-- C3: after `replace_all_regions` with a well-formed (contiguous,
document-tiling) region list, the `data_regions` subset is sorted by
`d_offset` with pairwise non-overlapping byte ranges, and the union of
the ranges `[d_offset, d_offset + d_length)` is exactly the set of byte
offsets of the document — the offsets a cursor position can address. -/
theorem replace_all_regions_coverage (s : DocumentCtrlState)
    (new_regions : List RegionS)
    (hw : contiguousFrom 0 (dataRegionsOf new_regions))
    (hlen : sumLen (dataRegionsOf new_regions) = s.doc_length) :
    List.Pairwise
      (fun a c => a.d_offset ≤ c.d_offset ∧ a.d_offset + a.d_length ≤ c.d_offset)
      (replace_all_regions s new_regions).data_regions ∧
    ∀ o : Nat,
      coveredBy (replace_all_regions s new_regions).data_regions o ↔
        o < (replace_all_regions s new_regions).doc_length := by
  unfold replace_all_regions
  dsimp only
  refine ⟨contiguousFrom_pairwise hw, ?_⟩
  intro o
  rw [contiguousFrom_coverage hw o]
  omega

/-- Witness for C3: a data region, a comment, and a second data region
tiling a 10-byte document; coverage checked at offset 5. -/
theorem replace_all_regions_coverage_witness :
    (List.Pairwise
      (fun a c => a.d_offset ≤ c.d_offset ∧ a.d_offset + a.d_length ≤ c.d_offset)
      (replace_all_regions { initialState with doc_length := 10 }
        [RegionS.data ⟨0, 4⟩, RegionS.comment 4 0, RegionS.data ⟨4, 6⟩]).data_regions) ∧
    (coveredBy
      (replace_all_regions { initialState with doc_length := 10 }
        [RegionS.data ⟨0, 4⟩, RegionS.comment 4 0, RegionS.data ⟨4, 6⟩]).data_regions 5 ↔
      5 < (replace_all_regions { initialState with doc_length := 10 }
        [RegionS.data ⟨0, 4⟩, RegionS.comment 4 0, RegionS.data ⟨4, 6⟩]).doc_length) := by
  have h := replace_all_regions_coverage { initialState with doc_length := 10 }
    [RegionS.data ⟨0, 4⟩, RegionS.comment 4 0, RegionS.data ⟨4, 6⟩]
    (by decide) (by decide)
  exact ⟨h.1, h.2 5⟩

/-- A nonempty contiguous list reaches (within or adjacent to some
region) every offset of the closed interval it tiles. -/
theorem contiguousFrom_adjacent {b : Nat} {l : List GenericDataRegionS}
    (h : contiguousFrom b l) (hne : l ≠ []) (o : Nat)
    (hlo : b ≤ o) (hhi : o ≤ b + sumLen l) :
    ∃ r ∈ l, r.d_offset ≤ o ∧ o ≤ r.d_offset + r.d_length := by
  induction l generalizing b with
  | nil => exact absurd rfl hne
  | cons a t ih =>
    rcases h with ⟨ha, ht⟩
    have hsum : sumLen (a :: t) = a.d_length + sumLen t := by
      simp [sumLen]
    by_cases hz : o ≤ a.d_offset + a.d_length
    · exact ⟨a, List.mem_cons_self a t, by omega, hz⟩
    · cases t with
      | nil =>
        exfalso
        have hz0 : sumLen [a] = a.d_length := by simp [sumLen]
        omega
      | cons a2 t2 =>
        have := ih ht (by simp) (by omega) (by omega)
        rcases this with ⟨r, hr, hro⟩
        exact ⟨r, List.mem_cons_of_mem a hr, hro⟩

/-- C9: after `set_cursor_position` on a control whose data regions tile
the document contiguously, `cpos_off` lies in `[0, document length]` and
is reachable via some data region's cursor navigation. -/
theorem set_cursor_position_invariant (s : DocumentCtrlState) (position : Int)
    (hw : contiguousFrom 0 s.data_regions)
    (hlen : sumLen s.data_regions = s.doc_length)
    (hne : s.data_regions ≠ []) :
    0 ≤ (set_cursor_position s position).cpos_off ∧
    (set_cursor_position s position).cpos_off ≤ (s.doc_length : Int) ∧
    reachableCursorOffset (set_cursor_position s position).data_regions
      (set_cursor_position s position).cpos_off := by
  unfold set_cursor_position _set_cursor_position clampCursor
  dsimp only
  have h0 : (0 : Int) ≤ max 0 (min position (s.doc_length : Int)) :=
    le_max_left 0 _
  have h1 : max 0 (min position (s.doc_length : Int)) ≤ (s.doc_length : Int) :=
    max_le (by exact_mod_cast Nat.zero_le s.doc_length) (min_le_right _ _)
  refine ⟨h0, h1, ?_⟩
  set c : Int := max 0 (min position (s.doc_length : Int)) with hc
  have hcn : (c.toNat : Int) = c := Int.toNat_of_nonneg h0
  have hle : c.toNat ≤ s.doc_length := by omega
  have := contiguousFrom_adjacent hw hne c.toNat (Nat.zero_le _) (by omega)
  rcases this with ⟨r, hr, hro1, hro2⟩
  refine ⟨r, hr, ?_, ?_⟩ <;> omega

/-- Witness for C9: one region `[0,4)` over a 4-byte document, with the
out-of-range request 99 clamped to 4, adjacent to the region. -/
theorem set_cursor_position_invariant_witness :
    0 ≤ (set_cursor_position
      { initialState with doc_length := 4, data_regions := [⟨0, 4⟩] } 99).cpos_off ∧
    (set_cursor_position
      { initialState with doc_length := 4, data_regions := [⟨0, 4⟩] } 99).cpos_off ≤
      ((4 : Nat) : Int) ∧
    reachableCursorOffset
      (set_cursor_position
        { initialState with doc_length := 4, data_regions := [⟨0, 4⟩] } 99).data_regions
      (set_cursor_position
        { initialState with doc_length := 4, data_regions := [⟨0, 4⟩] } 99).cpos_off :=
  set_cursor_position_invariant
    { initialState with doc_length := 4, data_regions := [⟨0, 4⟩] } 99
    (by decide) (by decide) (by decide)

/-- C6: setting the vertical scroll position of control `a` in a linked
ring propagates the same value to every linked control, every other
member of the ring is notified, and the originating control is never
re-notified. -/
theorem linked_scroll_propagation (ring : List ScrollCtrl) (a : Nat) (v : Int) :
    (∀ c ∈ (set_scroll_yoff ring a v).1, c.scroll_yoff = v) ∧
    (∀ c ∈ ring, c.id ≠ a → c.id ∈ (set_scroll_yoff ring a v).2) ∧
    a ∉ (set_scroll_yoff ring a v).2 := by
  unfold set_scroll_yoff linked_scroll_visit_others
  dsimp only
  refine ⟨?_, ?_, ?_⟩
  · intro c hc
    simp only [List.mem_map] at hc
    rcases hc with ⟨c1, ⟨c0, _, rfl⟩, rfl⟩
    by_cases h : c0.id = a <;> simp [h]
  · intro c hc hca
    apply List.mem_map.mpr
    refine ⟨c, ?_, rfl⟩
    apply List.mem_filter.mpr
    constructor
    · exact List.mem_map.mpr ⟨c, hc, by simp [hca]⟩
    · simp [hca]
  · intro hmem
    simp only [List.mem_map, List.mem_filter] at hmem
    rcases hmem with ⟨c1, ⟨_, hne⟩, hid⟩
    rw [hid] at hne
    simp at hne

/-- Witness for C6: a two-control ring built with
`linked_scroll_insert_self_after`; control 0 scrolls to line 7, control 1
follows, and control 0 is not re-notified. -/
theorem linked_scroll_propagation_witness :
    (∀ c ∈ (set_scroll_yoff (linked_scroll_insert_self_after ⟨1, 0⟩ [⟨0, 0⟩]) 0 7).1,
      c.scroll_yoff = 7) ∧
    (∀ c ∈ linked_scroll_insert_self_after ⟨1, 0⟩ [⟨0, 0⟩], c.id ≠ 0 →
      c.id ∈ (set_scroll_yoff (linked_scroll_insert_self_after ⟨1, 0⟩ [⟨0, 0⟩]) 0 7).2) ∧
    0 ∉ (set_scroll_yoff (linked_scroll_insert_self_after ⟨1, 0⟩ [⟨0, 0⟩]) 0 7).2 :=
  linked_scroll_propagation (linked_scroll_insert_self_after ⟨1, 0⟩ [⟨0, 0⟩]) 0 7

/-- C7: with pairwise non-overlapping data regions and a nonempty
selection, the copy handler uses the owning region's `OnCopy` exactly
when the selection lies wholly within that single region, and falls back
to the default serialization across the full range whenever the selection
touches two distinct regions. -/
theorem do_copy_dispatch (s : DocumentCtrlState)
    (hpw : List.Pairwise rangesDisjoint s.data_regions)
    (hsel : 0 < s.selection_length) :
    (∀ r ∈ s.data_regions,
      r.d_offset ≤ s.selection_off →
      s.selection_off + s.selection_length ≤ r.d_offset + r.d_length →
      do_copy s = CopyResult.regionCopy r) ∧
    (∀ r1 ∈ s.data_regions, ∀ r2 ∈ s.data_regions, r1 ≠ r2 →
      ∀ p1 p2 : Nat,
        s.selection_off ≤ p1 → p1 < s.selection_off + s.selection_length →
        s.selection_off ≤ p2 → p2 < s.selection_off + s.selection_length →
        inRange r1 p1 → inRange r2 p2 →
        do_copy s = CopyResult.defaultSerialization) := by
  have hsym : ∀ x y, rangesDisjoint x y → rangesDisjoint y x := by
    intro x y h; exact Or.symm h
  have hforall :
      ∀ x ∈ s.data_regions, ∀ y ∈ s.data_regions, x ≠ y → rangesDisjoint x y :=
    fun x hx y hy hxy => List.Pairwise.forall hsym hpw hx hy hxy
  constructor
  · intro r hr hr1 hr2
    unfold do_copy
    have hfind : ∃ x, s.data_regions.find?
        (fun t => whollyContains t s.selection_off s.selection_length) = some x := by
      rw [← Option.isSome_iff_exists, List.find?_isSome]
      exact ⟨r, hr, by unfold whollyContains; simp [hr1, hr2]⟩
    rcases hfind with ⟨x, hx⟩
    have hxmem := List.mem_of_find?_eq_some hx
    have hxp := List.find?_some hx
    unfold whollyContains at hxp
    simp only [Bool.and_eq_true, decide_eq_true_eq] at hxp
    have hxr : x = r := by
      by_contra hne
      have hd := hforall x hxmem r hr hne
      unfold rangesDisjoint at hd
      omega
    rw [hx, hxr]
  · intro r1 hr1 r2 hr2 hne p1 p2 hp1a hp1b hp2a hp2b hin1 hin2
    unfold do_copy
    have hnone : s.data_regions.find?
        (fun t => whollyContains t s.selection_off s.selection_length) = none := by
      rw [List.find?_eq_none]
      intro t ht
      unfold whollyContains
      simp only [Bool.and_eq_true, decide_eq_true_eq, not_and]
      intro ht1 ht2
      have htr1 : t = r1 := by
        by_contra hx
        have hd := hforall t ht r1 hr1 hx
        unfold rangesDisjoint at hd
        unfold inRange at hin1
        omega
      have htr2 : t = r2 := by
        by_contra hx
        have hd := hforall t ht r2 hr2 hx
        unfold rangesDisjoint at hd
        unfold inRange at hin2
        omega
      exact hne (htr1 ▸ htr2)
    rw [hnone]

/-- Witness for C7: regions `[0,10)` and `[10,20)` with the spanning
selection `[5,15)`; the copy falls back to the default serialization. -/
theorem do_copy_dispatch_witness :
    do_copy
      { initialState with
          doc_length := 20,
          data_regions := [⟨0, 10⟩, ⟨10, 10⟩],
          selection_off := 5,
          selection_length := 10 } =
      CopyResult.defaultSerialization :=
  (do_copy_dispatch
    { initialState with
        doc_length := 20,
        data_regions := [⟨0, 10⟩, ⟨10, 10⟩],
        selection_off := 5,
        selection_length := 10 }
    (by decide) (by decide)).2
    ⟨0, 10⟩ (by decide) ⟨10, 10⟩ (by decide) (by decide)
    5 14 (by decide) (by decide) (by decide) (by decide) (by decide) (by decide)

/-- The byte cell recomputed from a character index spans that character:
the cell's start column is at most the character's column, which is
strictly inside the two-character cell. -/
theorem hex_cell_char_bounds (g : Nat) (hg : 0 < g) (rc : Nat)
    (hne : rc % (2 * g + 1) ≠ 2 * g) :
    2 * (rc / (2 * g + 1) * g + rc % (2 * g + 1) / 2) +
        (rc / (2 * g + 1) * g + rc % (2 * g + 1) / 2) / g ≤ rc ∧
    rc ≤ 2 * (rc / (2 * g + 1) * g + rc % (2 * g + 1) / 2) +
        (rc / (2 * g + 1) * g + rc % (2 * g + 1) / 2) / g + 1 := by
  have hgw : (2 * g + 1) * (rc / (2 * g + 1)) + rc % (2 * g + 1) = rc :=
    Nat.div_add_mod rc (2 * g + 1)
  have hwilt : rc % (2 * g + 1) < 2 * g + 1 := Nat.mod_lt rc (by omega)
  have h2 : 2 * (rc % (2 * g + 1) / 2) + rc % (2 * g + 1) % 2 = rc % (2 * g + 1) :=
    Nat.div_add_mod (rc % (2 * g + 1)) 2
  have h2lt : rc % (2 * g + 1) % 2 < 2 := Nat.mod_lt _ (by omega)
  have hw2g : rc % (2 * g + 1) / 2 < g := by omega
  have hbg : (rc / (2 * g + 1) * g + rc % (2 * g + 1) / 2) / g = rc / (2 * g + 1) := by
    rw [Nat.add_comm, Nat.mul_comm (rc / (2 * g + 1)) g,
      Nat.add_mul_div_left _ _ hg, Nat.div_eq_of_lt hw2g, Nat.zero_add]
  rw [hbg]
  have hexp : (2 * g + 1) * (rc / (2 * g + 1)) =
      2 * (rc / (2 * g + 1) * g) + rc / (2 * g + 1) := by ring
  omega

/-- Recover the row and the in-row byte index from a flattened byte
index. -/
theorem row_recover (q b k : Nat) (hb : b < k) :
    (q * k + b) / k = q ∧ (q * k + b) % k = b := by
  constructor
  · rw [Nat.add_comm, Nat.mul_comm,
      Nat.add_mul_div_left _ _ (by omega : 0 < k), Nat.div_eq_of_lt hb, Nat.zero_add]
  · rw [Nat.mul_comm, Nat.mul_add_mod, Nat.mod_eq_of_lt hb]

/-- C1: round-trip of the coordinate mapping — for every on-screen point
that `offset_at_xy_hex` resolves to a byte offset, `calc_offset_bounds`
of that offset yields a rectangle containing the original point (the
point's absolute line is the region's first line plus the region-relative
`y`). -/
theorem offset_roundtrip (L : DataRegionLayout) (x y : Int) (off : Nat)
    (hcw : 0 < L.hf_char_width) (hg : 0 < L.bytes_per_group)
    (hfound : offset_at_xy_hex L x y = some off) :
    (calc_offset_bounds L off).x ≤ x ∧
    x < (calc_offset_bounds L off).x + (calc_offset_bounds L off).w ∧
    (calc_offset_bounds L off).y ≤ (L.y_offset : Int) + y ∧
    (L.y_offset : Int) + y < (calc_offset_bounds L off).y + (calc_offset_bounds L off).h := by
  unfold offset_at_xy_hex at hfound
  split_ifs at hfound with hpt hgap hline hpad hdata
  have hoff : off = L.d_offset +
      (y.toNat * L.bytes_per_line_actual + byteInLine L x -
        L.first_line_pad_bytes) := by
    exact (Option.some.injEq _ _).mp hfound.symm
  push_neg at hpt
  rcases hpt with ⟨hxge, hyge⟩
  push_neg at hline hpad hdata
  have hidx : off - L.d_offset + L.first_line_pad_bytes =
      y.toNat * L.bytes_per_line_actual + byteInLine L x := by omega
  have hrec := row_recover y.toNat (byteInLine L x) L.bytes_per_line_actual hline
  have hcellb := hex_cell_char_bounds L.bytes_per_group hg (relCharOf L x) hgap
  have hcb1 : hexCellXChars L (byteInLine L x) ≤ relCharOf L x := hcellb.1
  have hcb2 : relCharOf L x ≤ hexCellXChars L (byteInLine L x) + 1 := hcellb.2
  have hdm : L.hf_char_width * relCharOf L x +
      (x - (L.hex_text_x : Int)).toNat % L.hf_char_width =
      (x - (L.hex_text_x : Int)).toNat := by
    unfold relCharOf
    exact Nat.div_add_mod _ _
  have hmlt : (x - (L.hex_text_x : Int)).toNat % L.hf_char_width < L.hf_char_width :=
    Nat.mod_lt _ hcw
  have hm1 : L.hf_char_width * hexCellXChars L (byteInLine L x) ≤
      L.hf_char_width * relCharOf L x :=
    Nat.mul_le_mul_left _ hcb1
  have hm2 : L.hf_char_width * relCharOf L x ≤
      L.hf_char_width * (hexCellXChars L (byteInLine L x) + 1) :=
    Nat.mul_le_mul_left _ hcb2
  have hm3 : L.hf_char_width * (hexCellXChars L (byteInLine L x) + 1) =
      L.hf_char_width * hexCellXChars L (byteInLine L x) + L.hf_char_width := by
    ring
  unfold calc_offset_bounds
  dsimp only
  rw [hidx, hrec.1, hrec.2]
  omega

/-- Witness for C1: a region at offset 5 with first line at screen line
3, 2-pixel characters, hex column at pixel 10, 8 bytes per line in
groups of 4; the point (32, 1) hits byte offset 18 and its bounding box
contains the point. -/
theorem offset_roundtrip_witness :
    offset_at_xy_hex ⟨5, 20, 3, 10, 2, 8, 4, 0⟩ 32 1 = some 18 ∧
    (calc_offset_bounds ⟨5, 20, 3, 10, 2, 8, 4, 0⟩ 18).x ≤ 32 ∧
    (32 : Int) < (calc_offset_bounds ⟨5, 20, 3, 10, 2, 8, 4, 0⟩ 18).x +
      (calc_offset_bounds ⟨5, 20, 3, 10, 2, 8, 4, 0⟩ 18).w ∧
    (calc_offset_bounds ⟨5, 20, 3, 10, 2, 8, 4, 0⟩ 18).y ≤ ((3 : Nat) : Int) + 1 ∧
    ((3 : Nat) : Int) + 1 < (calc_offset_bounds ⟨5, 20, 3, 10, 2, 8, 4, 0⟩ 18).y +
      (calc_offset_bounds ⟨5, 20, 3, 10, 2, 8, 4, 0⟩ 18).h := by
  have h := offset_roundtrip ⟨5, 20, 3, 10, 2, 8, 4, 0⟩ 32 1 18
    (by decide) (by decide) (by decide)
  exact ⟨by decide, h.1, h.2.1, h.2.2.1, h.2.2.2⟩

/-- The minimum-picking fold stays inside the candidate list. -/
theorem minBy_mem (f : Int → Nat) (c : Int) (cs : List Int) :
    minBy f c cs ∈ c :: cs := by
  induction cs generalizing c with
  | nil => simp [minBy]
  | cons p ps ih =>
    have h := ih (if f p < f c then p else c)
    have hgoal : minBy f c (p :: ps) = minBy f (if f p < f c then p else c) ps := rfl
    rw [hgoal]
    rcases List.mem_cons.mp h with h1 | h1
    · by_cases hf : f p < f c
      · rw [if_pos hf] at h1 ⊢
        rw [h1]
        exact List.mem_cons_of_mem c (List.mem_cons_self p ps)
      · rw [if_neg hf] at h1 ⊢
        rw [h1]
        exact List.mem_cons_self c (p :: ps)
    · exact List.mem_cons_of_mem c (List.mem_cons_of_mem p h1)

/-- The minimum-picking fold minimises `f` over the candidate list. -/
theorem minBy_le (f : Int → Nat) (c : Int) (cs : List Int) :
    ∀ a ∈ c :: cs, f (minBy f c cs) ≤ f a := by
  induction cs generalizing c with
  | nil =>
    intro a ha
    rcases List.mem_cons.mp ha with rfl | h
    · simp [minBy]
    · cases h
  | cons p ps ih =>
    intro a ha
    have hstep : f (if f p < f c then p else c) ≤ f c ∧
        f (if f p < f c then p else c) ≤ f p := by
      by_cases hf : f p < f c
      · rw [if_pos hf]; omega
      · rw [if_neg hf]; omega
    have hminc : f (minBy f (if f p < f c then p else c) ps) ≤
        f (if f p < f c then p else c) :=
      ih (if f p < f c then p else c) _ (List.mem_cons_self _ _)
    have hgoal : minBy f c (p :: ps) = minBy f (if f p < f c then p else c) ps := rfl
    rw [hgoal]
    rcases List.mem_cons.mp ha with rfl | ha2
    · omega
    rcases List.mem_cons.mp ha2 with rfl | ha3
    · omega
    · exact ih (if f p < f c then p else c) a (List.mem_cons_of_mem _ ha3)

/-- C4: moving the cursor right from the last cursor position of data
region `R` makes `cursor_right_from` return the CURSOR_NEXT_REGION
sentinel; the handler then resolves the new position via the next
region's `first_row_nearest_column` at the old visual column, landing on
a cursor position of the next region's first row — at the same visual
column whenever the first row has one. -/
theorem cursor_right_cross_region (regs : List DataRegionLayout) (i : Nat)
    (R N : DataRegionLayout) (pos : Int)
    (hR : regs.get? i = some R) (hN : regs.get? (i + 1) = some N)
    (hRlen : 0 < R.d_length)
    (hpos : pos = (R.d_offset : Int) + (R.d_length : Int) - 1)
    (hNrow : firstRowPositions N ≠ []) :
    cursor_right_from R pos = CURSOR_NEXT_REGION ∧
    cursor_right_dispatch regs i pos =
      first_row_nearest_column N (cursor_column R pos) ∧
    cursor_right_dispatch regs i pos ∈ firstRowPositions N ∧
    ((∃ p ∈ firstRowPositions N, cursor_column N p = cursor_column R pos) →
      cursor_column N (cursor_right_dispatch regs i pos) = cursor_column R pos) := by
  have hsent : cursor_right_from R pos = CURSOR_NEXT_REGION := by
    unfold cursor_right_from
    rw [if_neg (by omega)]
  have hdisp : cursor_right_dispatch regs i pos =
      first_row_nearest_column N (cursor_column R pos) := by
    unfold cursor_right_dispatch
    rw [hR, hN]
    simp [hsent]
  rcases List.exists_cons_of_ne_nil hNrow with ⟨c, cs, hcs⟩
  have hres : cursor_right_dispatch regs i pos =
      minBy (fun p => (cursor_column N p - cursor_column R pos).natAbs) c cs := by
    rw [hdisp]
    unfold first_row_nearest_column
    rw [hcs]
  refine ⟨hsent, hdisp, ?_, ?_⟩
  · rw [hres, hcs]
    exact minBy_mem _ c cs
  · rintro ⟨p, hp, hpc⟩
    rw [hcs] at hp
    have hle : (cursor_column N
        (minBy (fun q => (cursor_column N q - cursor_column R pos).natAbs) c cs) -
        cursor_column R pos).natAbs ≤
        (cursor_column N p - cursor_column R pos).natAbs :=
      minBy_le (fun q => (cursor_column N q - cursor_column R pos).natAbs) c cs p hp
    have hzero : (cursor_column N p - cursor_column R pos).natAbs = 0 := by
      rw [hpc]
      simp
    have hmin0 : (cursor_column N
        (minBy (fun q => (cursor_column N q - cursor_column R pos).natAbs) c cs) -
        cursor_column R pos).natAbs = 0 := by omega
    rw [hres]
    have h0 := Int.natAbs_eq_zero.mp hmin0
    omega

/-- Witness for C4: two 4-byte-per-line regions, `[0,4)` and `[4,10)`;
moving right from offset 3 (last position of the first region, column 7)
crosses into the second region and lands on offset 7, the first-row
position at the same column 7. -/
theorem cursor_right_cross_region_witness :
    cursor_right_from ⟨0, 4, 0, 0, 1, 4, 2, 0⟩ 3 = CURSOR_NEXT_REGION ∧
    cursor_right_dispatch [⟨0, 4, 0, 0, 1, 4, 2, 0⟩, ⟨4, 6, 1, 0, 1, 4, 2, 0⟩] 0 3 =
      first_row_nearest_column ⟨4, 6, 1, 0, 1, 4, 2, 0⟩
        (cursor_column ⟨0, 4, 0, 0, 1, 4, 2, 0⟩ 3) ∧
    cursor_right_dispatch [⟨0, 4, 0, 0, 1, 4, 2, 0⟩, ⟨4, 6, 1, 0, 1, 4, 2, 0⟩] 0 3 ∈
      firstRowPositions ⟨4, 6, 1, 0, 1, 4, 2, 0⟩ ∧
    cursor_column ⟨4, 6, 1, 0, 1, 4, 2, 0⟩
        (cursor_right_dispatch [⟨0, 4, 0, 0, 1, 4, 2, 0⟩, ⟨4, 6, 1, 0, 1, 4, 2, 0⟩] 0 3) =
      cursor_column ⟨0, 4, 0, 0, 1, 4, 2, 0⟩ 3 := by
  have h := cursor_right_cross_region
    [⟨0, 4, 0, 0, 1, 4, 2, 0⟩, ⟨4, 6, 1, 0, 1, 4, 2, 0⟩] 0
    ⟨0, 4, 0, 0, 1, 4, 2, 0⟩ ⟨4, 6, 1, 0, 1, 4, 2, 0⟩ 3
    rfl rfl (by decide) (by decide) (by decide)
  exact ⟨h.1, h.2.1, h.2.2.1, h.2.2.2 ⟨7, by decide, by decide⟩⟩

end REHex
